import Mathlib

/-!
Verification of the token-buffer-and-cursor core of the InFact
StreamTokenizer (src/infact/stream-tokenizer.h).

The header defines all cursor operations inline; the lexical classifier
(StreamTokenizer::GetNext, together with ReadChar and ConsumeChar) is only
declared there, so it is modelled from the specification as an abstract
producer of the remaining tokens of the source.  Machine integers
(size_t) are modelled as Nat: all index arithmetic in the header is
guarded so that it never wraps, and vector growth is unbounded in the
model exactly as the specification treats it.  The fatal error channel
(Error, which by contract never returns control to the tokenizer) is
modelled by returning Except.error.
-/

namespace Infact

/-- The set of types of tokens read by the stream tokenizer
(enum TokenType in the header). -/
inductive TokenType where
  | EOF_TYPE
  | RESERVED_CHAR
  | RESERVED_WORD
  | STRING
  | NUMBER
  | IDENTIFIER
deriving DecidableEq

/-- Information about a token read from the underlying stream
(struct StreamTokenizer::Token). -/
structure Token where
  /-- The token itself. -/
  tok : String
  /-- The type of the token. -/
  type : TokenType
  /-- The starting byte of the token in the underlying stream. -/
  start : Nat
  /-- The line number of the first byte of the token. -/
  line_number : Nat
  /-- The position in the underlying stream just after reading this token. -/
  curr_pos : Nat
deriving DecidableEq

/-- Default token used to read a vector entry at an index that is known
in context to be in bounds (C++ operator[] needs no default). -/
def dummyToken : Token := ⟨"", TokenType.EOF_TYPE, 0, 0, 0⟩

/-- The state of a StreamTokenizer: the data members of the class.
The underlying byte stream together with the classifier is abstracted
into the list of tokens it will still yield (field pending), since the
classifier body is not part of the given header. -/
@[ext]
structure StreamTokenizer where
  /-- Modelled from the spec: the tokens the character source will still
  yield to the classifier, in order; stands for the data members is_,
  sstream_ and oss_ together with the classifier state. -/
  pending : List Token
  /-- Number of bytes read from the underlying byte stream (num_read_). -/
  num_read_ : Nat
  /-- Number of lines read from the underlying byte stream (line_number_). -/
  line_number_ : Nat
  /-- Whether the classifier has observed the end of input (eof_reached_). -/
  eof_reached_ : Bool
  /-- The sequence of tokens read so far (vector token_). -/
  token_ : List Token
  /-- The index of the next token of this stream in token_ (next_token_idx_). -/
  next_token_idx_ : Nat
deriving DecidableEq

namespace StreamTokenizer

/-- Modelled from the spec: body of StreamTokenizer::GetNext, which is
declared in the header but defined elsewhere.  Per the specification it
produces the next classified token of the source, or reports that no
token is available (true end of input); after a successful read the byte
and line counters reflect the position just past the consumed lexeme,
and on end of input the eof flag is set. -/
def GetNext (st : StreamTokenizer) : Option Token × StreamTokenizer :=
  match st.pending with
  | [] => (none, { st with eof_reached_ := true })
  | t :: rest =>
      (some t,
       { st with
           pending := rest,
           num_read_ := t.curr_pos,
           line_number_ := t.line_number })

/-- Returns whether there is another token in the token stream
(StreamTokenizer::HasNext). -/
def HasNext (st : StreamTokenizer) : Bool :=
  st.next_token_idx_ < st.token_.length

/-- StreamTokenizer::HasPrev. -/
def HasPrev (st : StreamTokenizer) : Bool :=
  st.next_token_idx_ > 0

/-- Number of bytes read from the underlying byte stream just after
scanning the most recent token, or 0 if this stream is just about to
return the first token (StreamTokenizer::tellg). -/
def tellg (st : StreamTokenizer) : Nat :=
  if st.HasPrev then (st.token_.getD (st.next_token_idx_ - 1) dummyToken).curr_pos else 0

/-- StreamTokenizer::line_number. -/
def line_number (st : StreamTokenizer) : Nat :=
  if st.HasNext then (st.token_.getD st.next_token_idx_ dummyToken).line_number
  else st.line_number_

/-- StreamTokenizer::PeekPrev. -/
def PeekPrev (st : StreamTokenizer) : String :=
  if st.HasPrev then (st.token_.getD (st.next_token_idx_ - 1) dummyToken).tok else ""

/-- StreamTokenizer::PeekPrevTokenStart. -/
def PeekPrevTokenStart (st : StreamTokenizer) : Nat :=
  if st.HasPrev then (st.token_.getD (st.next_token_idx_ - 1) dummyToken).start else 0

/-- StreamTokenizer::PeekPrevTokenType. -/
def PeekPrevTokenType (st : StreamTokenizer) : TokenType :=
  if st.HasPrev then (st.token_.getD (st.next_token_idx_ - 1) dummyToken).type
  else TokenType.EOF_TYPE

/-- Start position of the next token, or the byte position of the underlying
byte stream if there is no next token (StreamTokenizer::PeekTokenStart). -/
def PeekTokenStart (st : StreamTokenizer) : Nat :=
  if st.HasNext then (st.token_.getD st.next_token_idx_ dummyToken).start else st.num_read_

/-- Type of the next token, or EOF_TYPE if there is no next token
(StreamTokenizer::PeekTokenType). -/
def PeekTokenType (st : StreamTokenizer) : TokenType :=
  if st.HasNext then (st.token_.getD st.next_token_idx_ dummyToken).type
  else TokenType.EOF_TYPE

/-- Line number of the first byte of the next token, or the current line
number of the underlying stream if there is no next token
(StreamTokenizer::PeekTokenLineNumber). -/
def PeekTokenLineNumber (st : StreamTokenizer) : Nat :=
  if st.HasNext then (st.token_.getD st.next_token_idx_ dummyToken).line_number
  else st.line_number_

/-- The next token that would be returned by Next
(StreamTokenizer::Peek). -/
def Peek (st : StreamTokenizer) : String :=
  if st.HasNext then (st.token_.getD st.next_token_idx_ dummyToken).tok else ""

/-- The body of Next between the HasNext check and the cursor advance:
try to get the next token of the stream if we are about to run out of
tokens, pushing it onto token_ on success. -/
def fetchIfNeeded (st : StreamTokenizer) : StreamTokenizer :=
  if st.eof_reached_ = false ∧ st.next_token_idx_ + 1 = st.token_.length then
    match st.GetNext with
    | (some next, stg) => { stg with token_ := stg.token_ ++ [next] }
    | (none, stg) => stg
  else st

/-- The cursor advance at the end of Next: only advance if we have not
already reached token_.size(). -/
def advanceIfPossible (st : StreamTokenizer) : StreamTokenizer :=
  if st.next_token_idx_ < st.token_.length then
    { st with next_token_idx_ := st.next_token_idx_ + 1 }
  else st

/-- Returns the next token in the token stream (StreamTokenizer::Next).
The call to Error, which never returns, is modelled as Except.error. -/
def Next (st : StreamTokenizer) : Except String (String × StreamTokenizer) :=
  if st.HasNext = false then
    Except.error "invoking StreamTokenizer::Next when HasNext returns false"
  else
    Except.ok
      (((st.fetchIfNeeded.advanceIfPossible).token_.getD st.next_token_idx_ dummyToken).tok,
       st.fetchIfNeeded.advanceIfPossible)

/-- Rewinds this token stream to the beginning (StreamTokenizer::Rewind). -/
def Rewind (st : StreamTokenizer) : StreamTokenizer :=
  { st with next_token_idx_ := 0 }

/-- Rewinds this token stream by the specified number of tokens; cannot
rewind more than the number of tokens read so far
(StreamTokenizer::Rewind(size_t)). -/
def RewindN (st : StreamTokenizer) (num_tokens : Nat) : StreamTokenizer :=
  { st with
      next_token_idx_ :=
        st.next_token_idx_ -
          (if num_tokens > st.next_token_idx_ then st.next_token_idx_ else num_tokens) }

/-- A synonym for Rewind(1) (StreamTokenizer::Putback). -/
def Putback (st : StreamTokenizer) : StreamTokenizer :=
  st.RewindN 1

/-- Construction: the constructor body Init builds the initial state and
eagerly classifies the first token if one is available, pushing it onto
token_.  The reserved-character and reserved-word configuration only
parameterizes the classifier, which is abstracted into pending, so it
does not appear in the state. -/
def init (pending : List Token) : StreamTokenizer :=
  let st0 : StreamTokenizer :=
    { pending := pending, num_read_ := 0, line_number_ := 0,
      eof_reached_ := false, token_ := [], next_token_idx_ := 0 }
  match st0.GetNext with
  | (some next, stg) => { stg with token_ := stg.token_ ++ [next] }
  | (none, stg) => stg

/-- The states reachable from construction by the cursor-moving public
operations. -/
inductive Reachable : StreamTokenizer → Prop where
  | init (pending : List Token) : Reachable (init pending)
  | next {st : StreamTokenizer} {txt : String} {st' : StreamTokenizer} :
      Reachable st → st.Next = Except.ok (txt, st') → Reachable st'
  | rewind {st : StreamTokenizer} : Reachable st → Reachable st.Rewind
  | rewindN {st : StreamTokenizer} (n : Nat) : Reachable st → Reachable (st.RewindN n)
  | putback {st : StreamTokenizer} : Reachable st → Reachable st.Putback

/-- The internal invariant of the tokenizer: the eof flag is set only
after the source is exhausted, the cursor stays within the history, and
the one-token eager lookahead means the cursor can only reach the end of
the history once the source is exhausted. -/
def Inv (st : StreamTokenizer) : Prop :=
  (st.eof_reached_ = true → st.pending = []) ∧
  st.next_token_idx_ ≤ st.token_.length ∧
  (st.next_token_idx_ = st.token_.length → st.pending = [])

/-- A concrete token used to exercise the development on closed inputs. -/
def tokA : Token := ⟨"a", TokenType.IDENTIFIER, 0, 0, 1⟩

/-- A second concrete token. -/
def tokB : Token := ⟨"b", TokenType.IDENTIFIER, 2, 0, 3⟩

/-- The state reached by consuming the single token of init [tokA]. -/
def stA : StreamTokenizer :=
  { pending := [], num_read_ := 1, line_number_ := 0, eof_reached_ := true,
    token_ := [tokA], next_token_idx_ := 1 }

/-! ### Basic lemmas about the operations -/

theorem fetchIfNeeded_idx (st : StreamTokenizer) :
    st.fetchIfNeeded.next_token_idx_ = st.next_token_idx_ := by
  unfold fetchIfNeeded GetNext
  split
  · cases hp : st.pending <;> simp [hp]
  · rfl

theorem fetchIfNeeded_token (st : StreamTokenizer) :
    ∃ ts : List Token, st.fetchIfNeeded.token_ = st.token_ ++ ts := by
  unfold fetchIfNeeded GetNext
  split
  · cases hp : st.pending with
    | nil => exact ⟨[], by simp [hp]⟩
    | cons t rest => exact ⟨[t], by simp [hp]⟩
  · exact ⟨[], by simp⟩

theorem fetchIfNeeded_token_length (st : StreamTokenizer) :
    st.token_.length ≤ st.fetchIfNeeded.token_.length := by
  obtain ⟨ts, hts⟩ := st.fetchIfNeeded_token
  simp [hts]

theorem advanceIfPossible_of_lt (st : StreamTokenizer)
    (h : st.next_token_idx_ < st.token_.length) :
    st.advanceIfPossible = { st with next_token_idx_ := st.next_token_idx_ + 1 } := by
  unfold advanceIfPossible
  simp [h]

theorem Next_eq_ok (st : StreamTokenizer) (h : st.HasNext = true) :
    st.Next = Except.ok
      (((st.fetchIfNeeded.advanceIfPossible).token_.getD st.next_token_idx_ dummyToken).tok,
       st.fetchIfNeeded.advanceIfPossible) := by
  unfold Next
  simp [h]

theorem Next_eq_error (st : StreamTokenizer) (h : st.HasNext = false) :
    st.Next = Except.error "invoking StreamTokenizer::Next when HasNext returns false" := by
  unfold Next
  simp [h]

/-- Under HasNext, the cursor is strictly inside the history even after the
fetch step, so the advance step always fires. -/
theorem fetch_lt (st : StreamTokenizer) (h : st.HasNext = true) :
    st.fetchIfNeeded.next_token_idx_ < st.fetchIfNeeded.token_.length := by
  have h1 := st.fetchIfNeeded_idx
  have h2 := st.fetchIfNeeded_token_length
  simp only [HasNext, decide_eq_true_eq] at h
  omega

theorem Next_state (st : StreamTokenizer) (h : st.HasNext = true) :
    (st.fetchIfNeeded.advanceIfPossible).next_token_idx_ = st.next_token_idx_ + 1 ∧
    (st.fetchIfNeeded.advanceIfPossible).token_ = st.fetchIfNeeded.token_ := by
  rw [st.fetchIfNeeded.advanceIfPossible_of_lt (st.fetch_lt h)]
  exact ⟨by simp [st.fetchIfNeeded_idx], rfl⟩

theorem Next_token_getD (st : StreamTokenizer) (h : st.HasNext = true) :
    (st.fetchIfNeeded.advanceIfPossible).token_.getD st.next_token_idx_ dummyToken =
      st.token_.getD st.next_token_idx_ dummyToken := by
  rw [(st.Next_state h).2]
  obtain ⟨ts, hts⟩ := st.fetchIfNeeded_token
  rw [hts]
  simp only [HasNext, decide_eq_true_eq] at h
  exact List.getD_append _ _ _ _ h

theorem RewindN_idx (st : StreamTokenizer) (n : Nat) :
    (st.RewindN n).next_token_idx_ = st.next_token_idx_ - n := by
  unfold RewindN
  simp only
  split_ifs <;> omega

theorem RewindN_token (st : StreamTokenizer) (n : Nat) :
    (st.RewindN n).token_ = st.token_ := rfl

theorem Peek_of_lt (st : StreamTokenizer) (h : st.next_token_idx_ < st.token_.length) :
    st.Peek = (st.token_.getD st.next_token_idx_ dummyToken).tok := by
  unfold Peek HasNext
  simp [h]

theorem init_idx (pending : List Token) : (init pending).next_token_idx_ = 0 := by
  unfold init GetNext
  cases pending <;> simp

/-- Case analysis on the fetch step of Next. -/
theorem fetchIfNeeded_cases (st : StreamTokenizer) :
    (¬(st.eof_reached_ = false ∧ st.next_token_idx_ + 1 = st.token_.length) ∧
       st.fetchIfNeeded = st) ∨
    ((st.eof_reached_ = false ∧ st.next_token_idx_ + 1 = st.token_.length) ∧
      ((st.pending = [] ∧ st.fetchIfNeeded = { st with eof_reached_ := true }) ∨
       (∃ t rest, st.pending = t :: rest ∧
          st.fetchIfNeeded =
            { st with
                pending := rest, num_read_ := t.curr_pos,
                line_number_ := t.line_number, token_ := st.token_ ++ [t] }))) := by
  by_cases hc : st.eof_reached_ = false ∧ st.next_token_idx_ + 1 = st.token_.length
  · right
    refine ⟨hc, ?_⟩
    cases hp : st.pending with
    | nil =>
        left
        exact ⟨rfl, by unfold fetchIfNeeded GetNext; simp [hc, hp]⟩
    | cons t rest =>
        right
        exact ⟨t, rest, rfl, by unfold fetchIfNeeded GetNext; simp [hc, hp]⟩
  · left
    exact ⟨hc, by unfold fetchIfNeeded; simp [hc]⟩

/-! ### Claim theorems -/

/-- C2: in every tokenizer state in which HasNext() is false, calling
Next() reports the fatal protocol-violation error through the external
error channel (modelled as Except.error, since Error never returns
control to the tokenizer) and never silently returns a token value. -/
theorem claim2_next_protocol_violation (st : StreamTokenizer) (h : st.HasNext = false) :
    st.Next = Except.error "invoking StreamTokenizer::Next when HasNext returns false" := by
  unfold Next
  simp [h]

theorem claim2_next_protocol_violation_witness :
    (init ([] : List Token)).HasNext = false ∧
    (init ([] : List Token)).Next =
      Except.error "invoking StreamTokenizer::Next when HasNext returns false" :=
  ⟨by decide, claim2_next_protocol_violation _ (by decide)⟩

/-- C5: for every cursor position and every n, calling Rewind(n) twice in
a row leaves the tokenizer in exactly the same state as a single call to
Rewind(2n); the cursor is clamped at 0 in both cases. -/
theorem claim5_rewind_composition (st : StreamTokenizer) (n : Nat) :
    (st.RewindN n).RewindN n = st.RewindN (2 * n) := by
  unfold RewindN
  ext <;> simp
  split_ifs <;> omega

/-- C7: in every state where HasNext() is false, Peek() returns empty
text, PeekTokenType() returns EOF_TYPE, PeekTokenStart() returns the
current total number of bytes read (num_read_), and
PeekTokenLineNumber() returns the current line count (line_number_).
These operations are pure functions of the state in this embedding,
reflecting that they are const methods reading no input, so they move no
cursor and change no state. -/
theorem claim7_peek_at_end_of_input (st : StreamTokenizer) (h : st.HasNext = false) :
    st.Peek = "" ∧ st.PeekTokenType = TokenType.EOF_TYPE ∧
    st.PeekTokenStart = st.num_read_ ∧ st.PeekTokenLineNumber = st.line_number_ := by
  simp [Peek, PeekTokenType, PeekTokenStart, PeekTokenLineNumber, h]

theorem claim7_peek_at_end_of_input_witness :
    (init ([] : List Token)).HasNext = false ∧
    ((init ([] : List Token)).Peek = "" ∧
     (init ([] : List Token)).PeekTokenType = TokenType.EOF_TYPE ∧
     (init ([] : List Token)).PeekTokenStart = (init ([] : List Token)).num_read_ ∧
     (init ([] : List Token)).PeekTokenLineNumber = (init ([] : List Token)).line_number_) :=
  ⟨by decide, claim7_peek_at_end_of_input _ (by decide)⟩

/-- C9: Rewind(), Rewind(n) and Putback() change only the cursor index:
the token history, the bytes-read counter, the line counter, the
end-of-input flag and the remaining source (hence the classifier, which
is only invoked through the source) are all left unchanged. -/
theorem claim9_rewind_frame (st : StreamTokenizer) (n : Nat) :
    (st.Rewind.token_ = st.token_ ∧ st.Rewind.num_read_ = st.num_read_ ∧
     st.Rewind.line_number_ = st.line_number_ ∧ st.Rewind.eof_reached_ = st.eof_reached_ ∧
     st.Rewind.pending = st.pending) ∧
    ((st.RewindN n).token_ = st.token_ ∧ (st.RewindN n).num_read_ = st.num_read_ ∧
     (st.RewindN n).line_number_ = st.line_number_ ∧
     (st.RewindN n).eof_reached_ = st.eof_reached_ ∧
     (st.RewindN n).pending = st.pending) ∧
    (st.Putback.token_ = st.token_ ∧ st.Putback.num_read_ = st.num_read_ ∧
     st.Putback.line_number_ = st.line_number_ ∧
     st.Putback.eof_reached_ = st.eof_reached_ ∧
     st.Putback.pending = st.pending) :=
  ⟨⟨rfl, rfl, rfl, rfl, rfl⟩, ⟨rfl, rfl, rfl, rfl, rfl⟩, ⟨rfl, rfl, rfl, rfl, rfl⟩⟩

/-- C10: the previous-token accessors are relative to the cursor: after
Rewind() in any state whatsoever, HasPrev() is false, tellg() returns 0,
PeekPrev() returns empty text, PeekPrevTokenStart() returns 0 and
PeekPrevTokenType() returns EOF_TYPE. -/
theorem claim10_prev_accessors_after_rewind (st : StreamTokenizer) :
    st.Rewind.HasPrev = false ∧ st.Rewind.tellg = 0 ∧ st.Rewind.PeekPrev = "" ∧
    st.Rewind.PeekPrevTokenStart = 0 ∧ st.Rewind.PeekPrevTokenType = TokenType.EOF_TYPE := by
  simp [Rewind, HasPrev, tellg, PeekPrev, PeekPrevTokenStart, PeekPrevTokenType]

/-- C1: whenever HasNext() is true, Next() succeeds; it returns the text
of the token that sat at the cursor when the call began and advances the
cursor by exactly one; and in the case where the cursor sits at the last
buffered token and the source is not yet exhausted (more tokens remain
obtainable), exactly one more token is classified and appended to the
history before consuming. -/
theorem claim1_next_consumes (st : StreamTokenizer) (h : st.HasNext = true) :
    ∃ st' : StreamTokenizer,
      st.Next = Except.ok ((st.token_.getD st.next_token_idx_ dummyToken).tok, st') ∧
      st'.next_token_idx_ = st.next_token_idx_ + 1 ∧
      (st.eof_reached_ = false → st.next_token_idx_ + 1 = st.token_.length →
        st.pending ≠ [] →
        st'.token_ = st.token_ ++ [st.pending.headD dummyToken]) := by
  refine ⟨st.fetchIfNeeded.advanceIfPossible, ?_, (st.Next_state h).1, ?_⟩
  · rw [st.Next_eq_ok h, st.Next_token_getD h]
  · intro heof hlen hp
    rw [(st.Next_state h).2]
    unfold fetchIfNeeded GetNext
    cases hpd : st.pending with
    | nil => exact absurd hpd hp
    | cons t rest => simp [heof, hlen, hpd]

theorem claim1_next_consumes_witness :
    (init [tokA, tokB]).HasNext = true ∧
    ∃ st' : StreamTokenizer,
      (init [tokA, tokB]).Next =
        Except.ok
          (((init [tokA, tokB]).token_.getD (init [tokA, tokB]).next_token_idx_ dummyToken).tok,
           st') ∧
      st'.next_token_idx_ = (init [tokA, tokB]).next_token_idx_ + 1 ∧
      ((init [tokA, tokB]).eof_reached_ = false →
        (init [tokA, tokB]).next_token_idx_ + 1 = (init [tokA, tokB]).token_.length →
        (init [tokA, tokB]).pending ≠ [] →
        st'.token_ = (init [tokA, tokB]).token_ ++ [(init [tokA, tokB]).pending.headD dummyToken]) :=
  ⟨by decide, claim1_next_consumes _ (by decide)⟩

/-- C6: for every state in which HasNext() is true, calling Next() and
then Putback() restores Peek() to the exact text Next() just returned;
and Putback() is the same operation as Rewind(1). -/
theorem claim6_putback_restores_peek (st : StreamTokenizer) (h : st.HasNext = true) :
    (∀ txt st', st.Next = Except.ok (txt, st') → st'.Putback.Peek = txt) ∧
    st.Putback = st.RewindN 1 := by
  refine ⟨?_, rfl⟩
  intro txt st' hnx
  rw [st.Next_eq_ok h] at hnx
  simp only [Except.ok.injEq, Prod.mk.injEq] at hnx
  obtain ⟨h1, h2⟩ := hnx
  subst h2
  obtain ⟨hidx, htok⟩ := st.Next_state h
  have hlt : st.next_token_idx_ < st.fetchIfNeeded.token_.length := by
    have := st.fetchIfNeeded_token_length
    simp only [HasNext, decide_eq_true_eq] at h
    omega
  have hPidx : (st.fetchIfNeeded.advanceIfPossible.Putback).next_token_idx_ =
      st.next_token_idx_ := by
    unfold Putback
    rw [RewindN_idx, hidx]
    omega
  have hPtok : (st.fetchIfNeeded.advanceIfPossible.Putback).token_ =
      st.fetchIfNeeded.token_ := by
    unfold Putback
    rw [RewindN_token, htok]
  rw [Peek_of_lt _ (by rw [hPidx, hPtok]; exact hlt), hPidx, hPtok, ← h1, htok]

theorem claim6_putback_restores_peek_witness :
    (init [tokA]).HasNext = true ∧
    ((∀ txt st', (init [tokA]).Next = Except.ok (txt, st') → st'.Putback.Peek = txt) ∧
     (init [tokA]).Putback = (init [tokA]).RewindN 1) :=
  ⟨by decide, claim6_putback_restores_peek _ (by decide)⟩

/-- C8: tellg() returns the positionAfter (curr_pos) of the most recently
consumed token, and 0 if no token has been consumed yet: immediately
after construction tellg() is 0, and after any successful Next() it is
the curr_pos of exactly the token whose text that Next() returned. -/
theorem claim8_tellg (st : StreamTokenizer) (txt : String) (st' : StreamTokenizer)
    (pending : List Token) (h : st.Next = Except.ok (txt, st')) :
    st'.tellg = (st'.token_.getD st.next_token_idx_ dummyToken).curr_pos ∧
    txt = (st'.token_.getD st.next_token_idx_ dummyToken).tok ∧
    (init pending).tellg = 0 := by
  have hn : st.HasNext = true := by
    by_contra hc
    rw [st.Next_eq_error (by simpa using hc)] at h
    exact Except.noConfusion h
  rw [st.Next_eq_ok hn] at h
  simp only [Except.ok.injEq, Prod.mk.injEq] at h
  obtain ⟨h1, h2⟩ := h
  subst h2
  obtain ⟨hidx, htok⟩ := st.Next_state hn
  refine ⟨?_, h1.symm, ?_⟩
  · unfold tellg HasPrev
    rw [hidx]
    simp
  · unfold tellg HasPrev
    rw [init_idx]
    simp

theorem claim8_tellg_witness :
    stA.tellg = (stA.token_.getD (init [tokA]).next_token_idx_ dummyToken).curr_pos ∧
    "a" = (stA.token_.getD (init [tokA]).next_token_idx_ dummyToken).tok ∧
    (init [tokB]).tellg = 0 :=
  claim8_tellg (init [tokA]) "a" stA [tokB] (by rfl)

/-! ### The reachable-state invariant -/

theorem inv_init (pending : List Token) : (init pending).Inv := by
  unfold init GetNext Inv
  cases pending <;> simp

theorem inv_next (st : StreamTokenizer) (hInv : st.Inv) (txt : String)
    (st' : StreamTokenizer) (h : st.Next = Except.ok (txt, st')) : st'.Inv := by
  obtain ⟨I1, I2, I3⟩ := hInv
  have hn : st.HasNext = true := by
    by_contra hc
    rw [st.Next_eq_error (by simpa using hc)] at h
    exact Except.noConfusion h
  have hlt : st.next_token_idx_ < st.token_.length := by
    simpa [HasNext] using hn
  rw [st.Next_eq_ok hn] at h
  simp only [Except.ok.injEq, Prod.mk.injEq] at h
  obtain ⟨-, h2⟩ := h
  subst h2
  obtain ⟨hidx, htok⟩ := st.Next_state hn
  have heof : st.fetchIfNeeded.advanceIfPossible.eof_reached_ =
      st.fetchIfNeeded.eof_reached_ := by
    rw [st.fetchIfNeeded.advanceIfPossible_of_lt (st.fetch_lt hn)]
  have hpend : st.fetchIfNeeded.advanceIfPossible.pending = st.fetchIfNeeded.pending := by
    rw [st.fetchIfNeeded.advanceIfPossible_of_lt (st.fetch_lt hn)]
  rcases st.fetchIfNeeded_cases with ⟨hc, hF⟩ | ⟨hc, ⟨hp, hF⟩ | ⟨t, rest, hp, hF⟩⟩
  · refine ⟨?_, ?_, ?_⟩
    · rw [heof, hpend, hF]
      exact I1
    · rw [hidx, htok, hF]
      omega
    · rw [hidx, htok, hpend, hF]
      intro hlen
      have heq : st.eof_reached_ = true := by
        by_contra hne
        exact hc ⟨by simpa using hne, hlen⟩
      exact I1 heq
  · refine ⟨?_, ?_, ?_⟩
    · intro _
      rw [hpend, hF]
      exact hp
    · rw [hidx, htok, hF]
      exact hlt
    · intro _
      rw [hpend, hF]
      exact hp
  · refine ⟨?_, ?_, ?_⟩
    · rw [heof, hpend, hF]
      intro he
      exact absurd (hc.1.symm.trans he) (by simp)
    · rw [hidx, htok, hF]
      simp only [List.length_append, List.length_cons, List.length_nil]
      omega
    · rw [hidx, htok, hpend, hF]
      simp only [List.length_append, List.length_cons, List.length_nil]
      intro hlen
      exfalso
      have h2 := hc.2
      omega

theorem inv_rewind (st : StreamTokenizer) (hInv : st.Inv) : st.Rewind.Inv := by
  obtain ⟨I1, I2, I3⟩ := hInv
  refine ⟨I1, by simp [Rewind], ?_⟩
  intro hlen
  unfold Rewind at hlen
  simp only at hlen
  exact I3 (by omega)

theorem inv_rewindN (st : StreamTokenizer) (hInv : st.Inv) (n : Nat) :
    (st.RewindN n).Inv := by
  obtain ⟨I1, I2, I3⟩ := hInv
  refine ⟨I1, ?_, ?_⟩
  · rw [RewindN_idx, RewindN_token]
    omega
  · rw [RewindN_idx, RewindN_token]
    intro hlen
    exact I3 (by omega)

theorem inv_putback (st : StreamTokenizer) (hInv : st.Inv) : st.Putback.Inv :=
  inv_rewindN st hInv 1

theorem reachable_inv {st : StreamTokenizer} (h : Reachable st) : st.Inv := by
  induction h with
  | init p => exact inv_init p
  | next _ hnx ih => exact inv_next _ ih _ _ hnx
  | rewind _ ih => exact inv_rewind _ ih
  | rewindN n _ ih => exact inv_rewindN _ ih n
  | putback _ ih => exact inv_putback _ ih

/-- C3: in every reachable tokenizer state, HasNext() returns true if and
only if a token is already buffered at the cursor position or the
underlying source may still yield another token; in particular HasNext()
is never false while more tokens remain obtainable. -/
theorem claim3_hasnext_iff (st : StreamTokenizer) (h : Reachable st) :
    st.HasNext = true ↔
      (st.next_token_idx_ < st.token_.length ∨ st.pending ≠ []) := by
  obtain ⟨I1, I2, I3⟩ := reachable_inv h
  unfold HasNext
  simp only [decide_eq_true_eq]
  constructor
  · exact Or.inl
  · rintro (hlt | hp)
    · exact hlt
    · rcases Nat.lt_or_ge st.next_token_idx_ st.token_.length with hlt | hge
      · exact hlt
      · exact absurd (I3 (Nat.le_antisymm I2 hge)) hp

theorem claim3_hasnext_iff_witness :
    (init [tokA]).HasNext = true ↔
      ((init [tokA]).next_token_idx_ < (init [tokA]).token_.length ∨
       (init [tokA]).pending ≠ []) :=
  claim3_hasnext_iff _ (Reachable.init [tokA])

/-- C4: every public operation preserves the history invariant: Next()
only ever appends to the token history and keeps the cursor within
[0, history length]; Rewind(), Rewind(n) and Putback() leave the history
untouched and keep the cursor within [0, history length].  The Peek/Has
queries are pure functions of the state in this embedding (const methods
in the header), so they preserve the invariant trivially. -/
theorem claim4_history_invariant (st : StreamTokenizer)
    (h : st.next_token_idx_ ≤ st.token_.length) :
    (∀ txt st', st.Next = Except.ok (txt, st') →
        (∃ ts, st'.token_ = st.token_ ++ ts) ∧
        st'.next_token_idx_ ≤ st'.token_.length) ∧
    (st.Rewind.token_ = st.token_ ∧
     st.Rewind.next_token_idx_ ≤ st.Rewind.token_.length) ∧
    (∀ n, (st.RewindN n).token_ = st.token_ ∧
        (st.RewindN n).next_token_idx_ ≤ (st.RewindN n).token_.length) ∧
    (st.Putback.token_ = st.token_ ∧
     st.Putback.next_token_idx_ ≤ st.Putback.token_.length) := by
  refine ⟨?_, ⟨rfl, by simp [Rewind]⟩, ?_, ⟨rfl, ?_⟩⟩
  · intro txt st' hnx
    have hn : st.HasNext = true := by
      by_contra hc
      rw [st.Next_eq_error (by simpa using hc)] at hnx
      exact Except.noConfusion hnx
    rw [st.Next_eq_ok hn] at hnx
    simp only [Except.ok.injEq, Prod.mk.injEq] at hnx
    obtain ⟨-, h2⟩ := hnx
    subst h2
    obtain ⟨hidx, htok⟩ := st.Next_state hn
    obtain ⟨ts, hts⟩ := st.fetchIfNeeded_token
    refine ⟨⟨ts, by rw [htok, hts]⟩, ?_⟩
    have := st.fetch_lt hn
    rw [hidx, htok]
    rw [st.fetchIfNeeded_idx] at this
    omega
  · intro n
    refine ⟨RewindN_token st n, ?_⟩
    rw [RewindN_idx, RewindN_token]
    omega
  · show (st.RewindN 1).next_token_idx_ ≤ (st.RewindN 1).token_.length
    rw [RewindN_idx, RewindN_token]
    omega

theorem claim4_history_invariant_witness :
    (init [tokA]).next_token_idx_ ≤ (init [tokA]).token_.length ∧
    ((∀ txt st', (init [tokA]).Next = Except.ok (txt, st') →
        (∃ ts, st'.token_ = (init [tokA]).token_ ++ ts) ∧
        st'.next_token_idx_ ≤ st'.token_.length) ∧
     ((init [tokA]).Rewind.token_ = (init [tokA]).token_ ∧
      (init [tokA]).Rewind.next_token_idx_ ≤ (init [tokA]).Rewind.token_.length) ∧
     (∀ n, ((init [tokA]).RewindN n).token_ = (init [tokA]).token_ ∧
        ((init [tokA]).RewindN n).next_token_idx_ ≤ ((init [tokA]).RewindN n).token_.length) ∧
     ((init [tokA]).Putback.token_ = (init [tokA]).token_ ∧
      (init [tokA]).Putback.next_token_idx_ ≤ (init [tokA]).Putback.token_.length)) :=
  ⟨by decide, claim4_history_invariant _ (by decide)⟩

end StreamTokenizer

end Infact
